import Mathlib

set_option maxHeartbeats 1000000

/-!
Shallow embedding of `post_filter.py`, a batch text-normalisation utility for
multi-turn dialog corpora.  Python strings are modelled as `List Char`
(Python `len` counts code points, which matches `List.length` on `List Char`).
Each definition is translated from the source file; line numbers refer to
`post_filter.py`.
-/

namespace PostFilter

/-- The set of characters stripped by Python `str.strip()` and matched by the
regex class `\s` on `str` patterns: ASCII whitespace, the information
separators, and the Unicode space characters. -/
def pyWS (c : Char) : Bool :=
  c = ' ' || c = '\t' || c = '\n' || c = '\x0b' || c = '\x0c' || c = '\r' ||
  (0x1c ≤ c.toNat && c.toNat ≤ 0x1f) || c.toNat = 0x85 || c.toNat = 0xa0 ||
  c.toNat = 0x1680 || (0x2000 ≤ c.toNat && c.toNat ≤ 0x200a) ||
  c.toNat = 0x2028 || c.toNat = 0x2029 || c.toNat = 0x202f ||
  c.toNat = 0x205f || c.toNat = 0x3000

/-- Python's substring containment `needle in hay` (`str.__contains__`). -/
def pyIn (needle hay : List Char) : Bool :=
  (List.range (hay.length + 1)).any (fun i => needle.isPrefixOf (hay.drop i))

/-- Python `str.rfind(c)`: index of the last occurrence of the character `c`,
`none` standing for Python's `-1`. -/
def rfind (s : List Char) (c : Char) : Option Nat :=
  match s with
  | [] => none
  | a :: rest =>
    match rfind rest c with
    | some i => some (i + 1)
    | none => if a = c then some 0 else none

/-- Splitting a string at newline characters.  `load_txt` (lines 22-27) uses
`f.readlines()` followed by `strip()` and a non-empty filter; splitting the
decoded file content at `'\n'` and then stripping/filtering yields the same
list of lines (the only difference, a trailing empty chunk, is removed by the
non-empty filter). -/
def splitNL : List Char → List (List Char)
  | [] => [[]]
  | c :: rest =>
    if c = '\n' then [] :: splitNL rest
    else (splitNL rest).modifyHead (fun h => c :: h)

/-- Python `line.split("\t\t")` (line 289): split at leftmost, non-overlapping
occurrences of the two-character separator `"\t\t"`. -/
def splitTT : List Char → List (List Char)
  | [] => [[]]
  | '\t' :: '\t' :: rest => [] :: splitTT rest
  | c :: rest => (splitTT rest).modifyHead (fun h => c :: h)

/-- Python `sep.join(xs)`. -/
def joinSep (sep : List Char) : List (List Char) → List Char
  | [] => []
  | [x] => x
  | x :: xs => x ++ sep ++ joinSep sep xs

/-- Python `str.strip()`: remove leading and trailing whitespace. -/
def pyStrip (s : List Char) : List Char :=
  (((s.dropWhile pyWS).reverse).dropWhile pyWS).reverse

/-- Fuelled worker for Python `str.replace(old, new)` with non-empty `old`:
scan left to right, replacing leftmost non-overlapping occurrences.  The fuel
only serves to make the recursion structural; `fuel ≥ s.length` is always
enough because each step consumes at least one character. -/
def pyReplaceGo (old new : List Char) : Nat → List Char → List Char
  | 0, s => s
  | _ + 1, [] => []
  | fuel + 1, c :: rest =>
    if old.isPrefixOf (c :: rest) && !old.isEmpty then
      new ++ pyReplaceGo old new fuel ((c :: rest).drop old.length)
    else
      c :: pyReplaceGo old new fuel rest

/-- Python `s.replace(old, new)`.  For empty `old` Python inserts `new` before
every character and at the end (`"ab".replace("", "X") = "XaXbX"`). -/
def pyReplace (old new s : List Char) : List Char :=
  if old.isEmpty then new ++ s.flatMap (fun c => c :: new)
  else pyReplaceGo old new s.length s

/-- An ASCII letter, the character class `[a-zA-Z]` of `TM_REGEX` (line 209). -/
def isAsciiLetter (c : Char) : Bool :=
  ('a' ≤ c && c ≤ 'z') || ('A' ≤ c && c ≤ 'Z')

/-- `TM_REGEX.sub(lambda m: m.group(1) + m.group(3), seq)` (lines 209, 264):
the pattern `([^a-zA-Z])(tm)([^a-zA-Z])` with `re.I` replaces a non-letter,
the letters `tm` in either case, and a non-letter by the outer two characters;
scanning resumes after each match.  (The `re.I` flag only affects the literal
`tm`; the Unicode characters that case-fold into `[a-zA-Z]` are not modelled.) -/
def tmSub : List Char → List Char
  | c1 :: c2 :: c3 :: c4 :: rest =>
    if !isAsciiLetter c1 && (c2 = 't' || c2 = 'T') && (c3 = 'm' || c3 = 'M')
        && !isAsciiLetter c4 then
      c1 :: c4 :: tmSub rest
    else
      c1 :: tmSub (c2 :: c3 :: c4 :: rest)
  | s => s

/-- The character class `[:\s]` of `COLON_REGEX` (line 227). -/
def colonClass (c : Char) : Bool := c = ':' || pyWS c

theorem length_takeWhile_le (p : Char → Bool) (l : List Char) :
    (l.takeWhile p).length ≤ l.length :=
  (List.takeWhile_sublist p).length_le

theorem length_dropWhile_le (p : Char → Bool) (l : List Char) :
    (l.dropWhile p).length ≤ l.length :=
  (List.dropWhile_sublist p).length_le

/-- `COLON_REGEX.sub("", seq)` (lines 227, 258): the pattern `[:\s]{4,}` is
greedy, so each match is a maximal run of at least four `[:\s]` characters;
matched runs are removed and scanning resumes after the match. -/
def colonSub (s : List Char) : List Char :=
  match s with
  | [] => []
  | c :: rest =>
    if _h : 4 ≤ (List.takeWhile colonClass (c :: rest)).length then
      colonSub (List.drop (List.takeWhile colonClass (c :: rest)).length (c :: rest))
    else c :: colonSub rest
termination_by s.length
decreasing_by
  · simp only [List.length_drop, List.length_cons]
    omega
  · simp

/-- Index of the first closing bracket `cl` reachable without crossing a
newline: the lazy `.*?` of `BRACKETS_REGEX` extends one non-newline character
at a time, so a match exists exactly when `cl` occurs before any `'\n'`. -/
def findClose (cl : Char) : List Char → Option Nat
  | [] => none
  | c :: rest =>
    if c = cl then some 0
    else if c = '\n' then none
    else (findClose cl rest).map (fun j => j + 1)

/-- `BRACKETS_REGEX.sub("", seq)` and `BRACKETS_REGEX2.sub("", seq)`
(lines 215, 218, 249, 250): the pattern `\[.*?\] *` (resp. the full-width
variant) matches an opening bracket, the lazily shortest non-newline stretch
up to a closing bracket, and a greedy run of spaces; matches are removed and
scanning resumes after the match. -/
def bracketsSubG (op cl : Char) (s : List Char) : List Char :=
  match s with
  | [] => []
  | c :: rest =>
    if c = op then
      match findClose cl rest with
      | some j => bracketsSubG op cl (List.dropWhile (fun d => d = ' ') (List.drop (j + 1) rest))
      | none => c :: bracketsSubG op cl rest
    else c :: bracketsSubG op cl rest
termination_by s.length
decreasing_by
  · refine Nat.lt_of_le_of_lt (length_dropWhile_le _ _) ?_
    simp only [List.length_drop, List.length_cons]
    omega
  · simp
  · simp

/-- The literal `显示全部` of the zhihu pattern (line 244). -/
def showAllL : List Char := ['显', '示', '全', '部']

/-- `re.compile(r"…* *显示全部\s*").sub("", seq)` (lines 244-246).  Because the
character classes `…`, `' '` and the literal's first character are pairwise
distinct, the only decomposition the backtracking engine can use at a given
start position is: the maximal run of `…`, then the maximal run of spaces,
then the literal, then (greedily) the maximal run of whitespace. -/
def zhihuSub (s : List Char) : List Char :=
  match s with
  | [] => []
  | c :: rest =>
    let a := (List.takeWhile (fun d => d = '…') (c :: rest)).length
    let b := (List.takeWhile (fun d => d = ' ') (List.drop a (c :: rest))).length
    if h : showAllL.isPrefixOf (List.drop (a + b) (c :: rest)) then
      zhihuSub (List.dropWhile pyWS (List.drop (a + b + 4) (c :: rest)))
    else c :: zhihuSub rest
termination_by s.length
decreasing_by
  · refine Nat.lt_of_le_of_lt (length_dropWhile_le _ _) ?_
    simp only [List.length_drop, List.length_cons]
    omega
  · simp

/-- Whether `re.search(r"(@+)\S{,30} ", seq)` (line 193) finds a match:
there is a position `i` with `k ≥ 1` at-signs, then `j ≤ 30` non-whitespace
characters, then a space.  `re.search` succeeds exactly when some such
decomposition exists. -/
def atSearch (s : List Char) : Bool :=
  (List.range s.length).any fun i =>
    (List.range' 1 s.length).any fun k =>
      (List.range 31).any fun j =>
        decide (i + k + j < s.length) &&
        ((s.drop i).take k).all (fun c => c = '@') &&
        ((s.drop (i + k)).take j).all (fun c => !pyWS c) &&
        (s.getD (i + k + j) 'x' = ' ')

/-- `contain_at(seq, tail_length)` (lines 178-202): true when the regex
`(@+)\S{,30} ` matches somewhere, or when the string after the last `@`
(inclusive) is shorter than `tail_length`. -/
def contain_at (seq : List Char) (tail_length : Nat) : Bool :=
  if atSearch seq then true
  else
    match rfind seq '@' with
    | some i => decide (seq.length - i < tail_length)
    | none => false

/-- The literal `"http"` tested at line 310. -/
def httpL : List Char := ['h', 't', 't', 'p']

/-- The vulgar term blanked at lines 255-256. -/
def nimaL : List Char := ['尼', '玛']

/-- The literal `"[图片]"` removed at line 260. -/
def imgL : List Char := ['[', '图', '片', ']']

/-- The full-width literal `"［图片］"` removed at line 261. -/
def imgFwL : List Char := ['［', '图', '片', '］']

/-- The literal `"我擦"` removed at line 262. -/
def wocaL : List Char := ['我', '擦']

/-- The data-type specific first step of `seq_clean` (lines 242-250): the
zhihu pattern for `"zhihu"`, `BRACKETS_REGEX` then `BRACKETS_REGEX2` for
`"weibo_tang"`, and the identity otherwise. -/
def seq_clean_pre (seq : List Char) (data_type : String) : List Char :=
  if data_type = "zhihu" then zhihuSub seq
  else if data_type = "weibo_tang" then bracketsSubG '［' '］' (bracketsSubG '[' ']' seq)
  else seq

/-- `seq_clean(seq, data_type)` (lines 230-265). -/
def seq_clean (seq : List Char) (data_type : String) : List Char :=
  let s1 := seq_clean_pre seq data_type
  let s2 := if contain_at s1 30 then [] else s1
  let s3 := if pyIn nimaL s2 then [] else s2
  let s4 := colonSub s3
  let s5 := pyReplace imgL [] s4
  let s6 := pyReplace imgFwL [] s5
  let s7 := pyReplace wocaL [] s6
  tmSub s7

/-- The literal `"zhihu"` tested against the path at line 300. -/
def zhihuL : List Char := ['z', 'h', 'i', 'h', 'u']

/-- The literal `"weibo_tang"` tested against the path at line 302. -/
def weiboTangL : List Char := ['w', 'e', 'i', 'b', 'o', '_', 't', 'a', 'n', 'g']

/-- The literal `"weibo_sunhao"` tested against the path at line 302. -/
def weiboSunhaoL : List Char := ['w', 'e', 'i', 'b', 'o', '_', 's', 'u', 'n', 'h', 'a', 'o']

/-- The `data_type` selected from the path (lines 300-305). -/
def data_type_of (path : List Char) : String :=
  if pyIn zhihuL path then "zhihu"
  else if pyIn weiboTangL path || pyIn weiboSunhaoL path then "weibo_tang"
  else "none"

/-- Per-utterance cleaning (lines 297-306): remove every space
(`seq.replace(" ", "")`), then, when `extra_func` is set, apply `seq_clean`
with the path-selected data type. -/
def clean_utt (path : List Char) (extra_func : Bool) (seq : List Char) : List Char :=
  let s := pyReplace [' '] [] seq
  if extra_func then seq_clean s (data_type_of path) else s

/-- Validity of a cleaned utterance as the claims word it: length between 1
and `max_length` and no occurrence of `"http"`.  The code (line 310) tests
the negation. -/
def validB (max_length : Nat) (s : List Char) : Bool :=
  decide (1 ≤ s.length) && decide (s.length ≤ max_length) && !pyIn httpL s

/-- The inner dialog loop of `single_func` (lines 291-323): `cur` is
`new_dialog`; a run is appended to the result (`new_data`) when an invalid
utterance is met or the dialog ends, and only if it holds more than one
utterance. -/
def processDialogGo (path : List Char) (extra_func : Bool) (max_length : Nat)
    (cur : List (List Char)) : List (List Char) → List (List (List Char))
  | [] => if 1 < cur.length then [cur] else []
  | seq :: rest =>
    let s := clean_utt path extra_func seq
    if max_length < s.length || s.length < 1 || pyIn httpL s then
      (if 1 < cur.length then [cur] else []) ++
        processDialogGo path extra_func max_length [] rest
    else
      processDialogGo path extra_func max_length (cur ++ [s]) rest

/-- `load_txt` (lines 10-27): the lines of the file, stripped, with empty
lines removed. -/
def load_txt (content : List Char) : List (List Char) :=
  ((splitNL content).map pyStrip).filter (fun l => 0 < l.length)

/-- The separator `"\t\t"` (lines 289, 326). -/
def ttL : List Char := ['\t', '\t']

/-- The runs collected in `new_data` for a whole file (lines 287-323). -/
def single_func_runs (content path : List Char) (extra_func : Bool)
    (max_length : Nat) : List (List (List Char)) :=
  ((load_txt content).map splitTT).flatMap
    (fun dialog => processDialogGo path extra_func max_length [] dialog)

/-- The comprehension at line 326: for each run `x` and each `j` in
`range(1, len(x))` with `len(x[j]) >= min_length`, the fragment
`"\t\t".join(x[:j+1])`. -/
def fragmentsOf (runs : List (List (List Char))) (min_length : Nat) :
    List (List Char) :=
  runs.flatMap (fun x =>
    (List.range' 1 (x.length - 1)).filterMap (fun j =>
      if min_length ≤ (x.getD j []).length then some (joinSep ttL (x.take (j + 1)))
      else none))

/-- The output file content `single_func` hands to `save_txt`
(lines 287-327). -/
def single_func_content (content path : List Char) (extra_func : Bool)
    (min_length max_length : Nat) : List Char :=
  joinSep ['\n'] (fragmentsOf (single_func_runs content path extra_func max_length) min_length)

/-- Observable effects of a `single_func` call: console prints, the file
read, the file write. -/
inductive Event where
  | eprint (msg : List Char)
  | eread (path : List Char)
  | ewrite (path content : List Char)
deriving DecidableEq

/-- The environment a call interacts with: what reading each path yields
(file content, or the message of the exception the read raises) and whether
each write succeeds or raises. -/
structure Env where
  fs : List Char → Except (List Char) (List Char)
  writeRes : List Char → List Char → Except (List Char) Unit

/-- `print("loading", path)` (line 283). -/
def loadingMsg (path : List Char) : List Char := "loading ".toList ++ path

/-- `print("outpath", outpath)` (line 284). -/
def outpathMsg (outpath : List Char) : List Char := "outpath ".toList ++ outpath

/-- `print("over", path)` (line 328). -/
def overMsg (path : List Char) : List Char := "over ".toList ++ path

/-- `print("error!!!!", e)` (line 330). -/
def errMsg (e : List Char) : List Char := "error!!!! ".toList ++ e

/-- The `try`-block body of `single_func` (lines 280-328): the events it
performs and whether it raised.  Cleaning is pure and cannot raise; reading
and writing raise according to the environment. -/
def single_func_body (env : Env) (path outpath : List Char) (extra_func : Bool)
    (min_length max_length : Nat) : List Event × Except (List Char) Unit :=
  let pre : List Event :=
    [Event.eprint (loadingMsg path), Event.eprint (outpathMsg outpath), Event.eread path]
  match env.fs path with
  | Except.error e => (pre, Except.error e)
  | Except.ok content =>
    let out := single_func_content content path extra_func min_length max_length
    match env.writeRes outpath out with
    | Except.error e => (pre ++ [Event.ewrite outpath out], Except.error e)
    | Except.ok _ =>
      (pre ++ [Event.ewrite outpath out, Event.eprint (overMsg path)], Except.ok ())

/-- `single_func` (lines 268-331): the body runs inside `try`; an exception
is caught by `except Exception`, its message is printed, and the function
returns normally without retrying. -/
def single_func_trace (env : Env) (path outpath : List Char) (extra_func : Bool)
    (min_length max_length : Nat) : List Event :=
  match single_func_body env path outpath extra_func min_length max_length with
  | (tr, Except.ok _) => tr
  | (tr, Except.error e) => tr ++ [Event.eprint (errMsg e)]

/-- The contents handed to `save_txt`, as recorded in a trace. -/
def writtenContents (tr : List Event) : List (List Char) :=
  tr.filterMap (fun ev => match ev with | Event.ewrite _ c => some c | _ => none)

/-- Whether an event is the file read. -/
def isRead (ev : Event) : Bool :=
  match ev with | Event.eread _ => true | _ => false

/-- `main` computes each output path as `path.replace(indir, outdir)`
(line 340). -/
def outpath_of (indir outdir path : List Char) : List Char :=
  pyReplace indir outdir path

/-- The `extra_func` value the command-line entry point passes to `main`
(line 366), which `main` forwards to every `single_func` call (line 356). -/
def script_extra_func : Bool := true

/-- Splitting a list at the elements failing `valid`: the chunks are the
(possibly empty) maximal contiguous runs of elements satisfying `valid`. -/
def splitRuns {α : Type} (valid : α → Bool) : List α → List (List α)
  | [] => [[]]
  | a :: l =>
    if valid a then (splitRuns valid l).modifyHead (fun h => a :: h)
    else [] :: splitRuns valid l

/-! ### Lemmas about the basic string operations -/

theorem pyIn_nil (n : List Char) : pyIn n [] = n.isEmpty := by
  cases n <;> rfl

theorem pyIn_cons (n : List Char) (c : Char) (r : List Char) :
    pyIn n (c :: r) = (n.isPrefixOf (c :: r) || pyIn n r) := by
  simp only [pyIn, List.length_cons]
  rw [List.range_succ_eq_map]
  simp only [List.any_cons, List.any_map, List.drop_zero]
  congr 1

theorem splitNL_ne_nil (s : List Char) : splitNL s ≠ [] := by
  induction s with
  | nil => simp [splitNL]
  | cons c rest ih =>
    simp only [splitNL]
    split
    · simp
    · cases h : splitNL rest with
      | nil => exact absurd h ih
      | cons a t => simp [List.modifyHead]

theorem mem_splitNL_no_nl (s : List Char) (u : List Char) (hu : u ∈ splitNL s) :
    '\n' ∉ u := by
  induction s generalizing u with
  | nil =>
    simp [splitNL] at hu
    simp [hu]
  | cons c rest ih =>
    simp only [splitNL] at hu
    by_cases hc : c = '\n'
    · simp only [if_pos hc, List.mem_cons] at hu
      rcases hu with rfl | hu
      · simp
      · exact ih u hu
    · simp only [if_neg hc] at hu
      cases h : splitNL rest with
      | nil => exact absurd h (splitNL_ne_nil rest)
      | cons a t =>
        rw [h, List.modifyHead_cons] at hu
        rcases List.mem_cons.mp hu with rfl | hu
        · intro hmem
          rcases List.mem_cons.mp hmem with h1 | h1
          · exact hc h1.symm
          · exact ih a (h ▸ List.mem_cons_self a t) h1
        · exact ih u (h ▸ List.mem_cons_of_mem a hu)

theorem splitNL_of_no_nl (f : List Char) (hf : '\n' ∉ f) : splitNL f = [f] := by
  induction f with
  | nil => simp [splitNL]
  | cons c rest ih =>
    have hc : c ≠ '\n' := fun h => hf (h ▸ List.mem_cons_self c rest)
    have hrest : '\n' ∉ rest := fun h => hf (List.mem_cons_of_mem c h)
    simp [splitNL, hc, ih hrest, List.modifyHead_cons]

theorem splitNL_append_nl (f t : List Char) (hf : '\n' ∉ f) :
    splitNL (f ++ '\n' :: t) = f :: splitNL t := by
  induction f with
  | nil => simp [splitNL]
  | cons c rest ih =>
    have hc : c ≠ '\n' := fun h => hf (h ▸ List.mem_cons_self c rest)
    have hrest : '\n' ∉ rest := fun h => hf (List.mem_cons_of_mem c h)
    simp [splitNL, hc, ih hrest, List.modifyHead_cons]

theorem splitNL_joinSep (frags : List (List Char)) (hne : frags ≠ [])
    (hnl : ∀ f ∈ frags, '\n' ∉ f) :
    splitNL (joinSep ['\n'] frags) = frags := by
  induction frags with
  | nil => exact absurd rfl hne
  | cons f rest ih =>
    cases rest with
    | nil => simpa [joinSep] using splitNL_of_no_nl f (hnl f (List.mem_cons_self f []))
    | cons g t =>
      have h1 : joinSep ['\n'] (f :: g :: t) = f ++ '\n' :: joinSep ['\n'] (g :: t) := by
        simp [joinSep]
      rw [h1, splitNL_append_nl f _ (hnl f (List.mem_cons_self f _)),
        ih (by simp) (fun x hx => hnl x (List.mem_cons_of_mem f hx))]

theorem splitTT_ne_nil (s : List Char) : splitTT s ≠ [] := by
  induction s using splitTT.induct with
  | case1 => simp [splitTT]
  | case2 rest ih => simp [splitTT]
  | case3 c rest h ih =>
    rw [splitTT.eq_def]
    split
    · simp
    · simp
    · rename_i c2 rest2 hcond heq
      injection heq with hc hr
      subst hr
      cases h2 : splitTT rest with
      | nil => exact absurd h2 ih
      | cons a t => simp [h2, List.modifyHead_cons]

theorem splitTT_cons_eq (c : Char) (rest : List Char)
    (h : ∀ rest2, c = '\t' → rest = '\t' :: rest2 → False) :
    splitTT (c :: rest) = (splitTT rest).modifyHead (fun hd => c :: hd) := by
  rw [splitTT.eq_def]
  split
  · rename_i heq
    exact absurd heq (by simp)
  · rename_i rest2 heq
    injection heq with h1 h2
    exact (h rest2 h1 h2).elim
  · rename_i c2 rest2 hcond heq
    injection heq with h1 h2
    subst h1
    subst h2
    rfl

theorem joinSep_splitTT (l : List Char) : joinSep ttL (splitTT l) = l := by
  induction l using splitTT.induct with
  | case1 => simp [splitTT, joinSep]
  | case2 rest ih =>
    cases h2 : splitTT rest with
    | nil => exact absurd h2 (splitTT_ne_nil rest)
    | cons a t =>
      rw [h2] at ih
      simp only [splitTT, h2]
      cases t with
      | nil => simp_all [joinSep, ttL]
      | cons b t2 => simp_all [joinSep, ttL]
  | case3 c rest h ih =>
    rw [splitTT_cons_eq c rest h]
    cases h2 : splitTT rest with
    | nil => exact absurd h2 (splitTT_ne_nil rest)
    | cons a t =>
      rw [h2] at ih
      rw [List.modifyHead_cons]
      cases t with
      | nil => simp_all [joinSep]
      | cons b t2 => simp_all [joinSep]

theorem mem_splitTT_subset (l u : List Char) (hu : u ∈ splitTT l) (c : Char)
    (hc : c ∈ u) : c ∈ l := by
  induction l using splitTT.induct generalizing u with
  | case1 =>
    simp [splitTT] at hu
    subst hu
    simp at hc
  | case2 rest ih =>
    simp only [splitTT, List.mem_cons] at hu
    rcases hu with rfl | hu
    · simp at hc
    · have := ih u hu hc
      simp [this]
  | case3 a rest h ih =>
    rw [splitTT_cons_eq a rest h] at hu
    cases h2 : splitTT rest with
    | nil => exact absurd h2 (splitTT_ne_nil rest)
    | cons b t =>
      rw [h2, List.modifyHead_cons] at hu
      rcases List.mem_cons.mp hu with rfl | hu
      · rcases List.mem_cons.mp hc with rfl | hc2
        · simp
        · exact List.mem_cons_of_mem a (ih b (h2 ▸ List.mem_cons_self b t) hc2)
      · exact List.mem_cons_of_mem a (ih u (h2 ▸ List.mem_cons_of_mem b hu) hc)

theorem splitTT_head_shape (l : List Char) (hd : List Char) (t : List (List Char))
    (h : splitTT l = hd :: t) : hd = [] ∨ hd.head? = l.head? := by
  induction l using splitTT.induct with
  | case1 =>
    simp [splitTT] at h
    simp [h.1]
  | case2 rest ih =>
    simp only [splitTT, List.cons.injEq] at h
    simp [h.1]
  | case3 c rest hc ih =>
    rw [splitTT_cons_eq c rest hc] at h
    cases h2 : splitTT rest with
    | nil => exact absurd h2 (splitTT_ne_nil rest)
    | cons b t2 =>
      rw [h2, List.modifyHead_cons] at h
      right
      injection h with ha hb
      rw [← ha]
      simp

theorem mem_splitTT_no_tt (l u : List Char) (hu : u ∈ splitTT l) :
    pyIn ttL u = false := by
  induction l using splitTT.induct generalizing u with
  | case1 =>
    simp [splitTT] at hu
    subst hu
    rfl
  | case2 rest ih =>
    simp only [splitTT, List.mem_cons] at hu
    rcases hu with rfl | hu
    · rfl
    · exact ih u hu
  | case3 c rest h ih =>
    rw [splitTT_cons_eq c rest h] at hu
    cases h2 : splitTT rest with
    | nil => exact absurd h2 (splitTT_ne_nil rest)
    | cons b t =>
      rw [h2, List.modifyHead_cons] at hu
      rcases List.mem_cons.mp hu with rfl | hu
      · rw [pyIn_cons]
        have hb : pyIn ttL b = false := ih b (h2 ▸ List.mem_cons_self b t)
        rw [hb]
        simp only [Bool.or_false]
        by_cases hc : c = '\t'
        · subst hc
          rcases splitTT_head_shape rest b t h2 with hb2 | hb2
          · subst hb2
            rfl
          · cases b with
            | nil => rfl
            | cons b0 b1 =>
              simp only [List.head?] at hb2
              have hb0 : b0 ≠ '\t' := by
                intro hb0
                subst hb0
                cases rest with
                | nil => simp at hb2
                | cons r0 r1 =>
                  simp only [List.head?, Option.some.injEq] at hb2
                  exact h r1 rfl (by rw [hb2])
              simp [ttL, List.isPrefixOf]
              exact fun hh => hb0 (Eq.symm hh)
        · simp [ttL, List.isPrefixOf]
          intro hh
          exact absurd (Eq.symm hh) hc
      · exact ih u (h2 ▸ List.mem_cons_of_mem b hu)

/-! ### Character-subset and length lemmas for the cleaning functions -/

theorem mem_pyReplaceGo (old new : List Char) (fuel : Nat) (s : List Char) (c : Char)
    (hc : c ∈ pyReplaceGo old new fuel s) : c ∈ new ∨ c ∈ s := by
  induction fuel generalizing s with
  | zero => exact Or.inr hc
  | succ f ih =>
    cases s with
    | nil => simp [pyReplaceGo] at hc
    | cons a rest =>
      simp only [pyReplaceGo] at hc
      split at hc
      · rcases List.mem_append.mp hc with h1 | h1
        · exact Or.inl h1
        · rcases ih _ h1 with h2 | h2
          · exact Or.inl h2
          · exact Or.inr (List.mem_of_mem_drop h2)
      · rcases List.mem_cons.mp hc with rfl | h1
        · exact Or.inr (List.mem_cons_self _ _)
        · rcases ih _ h1 with h2 | h2
          · exact Or.inl h2
          · exact Or.inr (List.mem_cons_of_mem _ h2)

theorem flatMap_singleton_chars (s : List Char) :
    s.flatMap (fun c => c :: ([] : List Char)) = s := by
  induction s with
  | nil => rfl
  | cons a rest ih => simp [List.flatMap_cons, ih]

theorem mem_pyReplace (old new s : List Char) (c : Char)
    (hc : c ∈ pyReplace old new s) : c ∈ new ∨ c ∈ s := by
  simp only [pyReplace] at hc
  split at hc
  · rcases List.mem_append.mp hc with h1 | h1
    · exact Or.inl h1
    · rcases List.mem_flatMap.mp h1 with ⟨a, ha, hca⟩
      rcases List.mem_cons.mp hca with rfl | h2
      · exact Or.inr ha
      · exact Or.inl h2
  · exact mem_pyReplaceGo old new s.length s c hc

theorem length_pyReplaceGo_nil (old : List Char) (fuel : Nat) (s : List Char) :
    (pyReplaceGo old [] fuel s).length ≤ s.length := by
  induction fuel generalizing s with
  | zero => exact Nat.le_refl _
  | succ f ih =>
    cases s with
    | nil => simp [pyReplaceGo]
    | cons a rest =>
      simp only [pyReplaceGo]
      split
      · simp only [List.nil_append]
        refine Nat.le_trans (ih _) ?_
        simp only [List.length_drop]
        exact Nat.sub_le _ _
      · simp only [List.length_cons]
        exact Nat.succ_le_succ (ih rest)

theorem length_pyReplace_nil (old s : List Char) :
    (pyReplace old [] s).length ≤ s.length := by
  simp only [pyReplace]
  split
  · rw [List.nil_append, flatMap_singleton_chars]
  · exact length_pyReplaceGo_nil old s.length s

theorem pyReplaceGo_no_occ (old new : List Char) (fuel : Nat) (s : List Char)
    (h : pyIn old s = false) : pyReplaceGo old new fuel s = s := by
  induction fuel generalizing s with
  | zero => rfl
  | succ f ih =>
    cases s with
    | nil => rfl
    | cons a rest =>
      rw [pyIn_cons] at h
      have h1 : old.isPrefixOf (a :: rest) = false := by
        cases hp : old.isPrefixOf (a :: rest) <;> simp_all
      have h2 : pyIn old rest = false := by
        cases hp : pyIn old rest <;> simp_all
      simp [pyReplaceGo, h1, ih rest h2]

/-- Spaces never survive `seq.replace(" ", "")`. -/
theorem space_not_mem_pyReplaceGo (fuel : Nat) (s : List Char)
    (hf : s.length ≤ fuel) : ' ' ∉ pyReplaceGo [' '] [] fuel s := by
  induction fuel generalizing s with
  | zero =>
    cases s with
    | nil => simp [pyReplaceGo]
    | cons a rest => simp at hf
  | succ f ih =>
    cases s with
    | nil => simp [pyReplaceGo]
    | cons a rest =>
      by_cases ha : a = ' '
      · subst ha
        rw [show pyReplaceGo [' '] [] (f + 1) (' ' :: rest) = pyReplaceGo [' '] [] f rest from by
          simp [pyReplaceGo, List.isPrefixOf]]
        exact ih rest (by simpa using Nat.le_of_succ_le_succ hf)
      · have hs : ¬ (' ' = a) := fun hh => ha (Eq.symm hh)
        rw [show pyReplaceGo [' '] [] (f + 1) (a :: rest) = a :: pyReplaceGo [' '] [] f rest from by
          simp [pyReplaceGo, List.isPrefixOf, hs]]
        intro hmem
        rcases List.mem_cons.mp hmem with h1 | h1
        · exact hs h1
        · exact ih rest (by simpa using Nat.le_of_succ_le_succ hf) h1

theorem space_not_mem_removeSpaces (s : List Char) : ' ' ∉ pyReplace [' '] [] s := by
  simp only [pyReplace]
  split
  · simp_all
  · exact space_not_mem_pyReplaceGo s.length s (Nat.le_refl _)

theorem mem_tmSub (s : List Char) (c : Char) (hc : c ∈ tmSub s) : c ∈ s := by
  induction s using tmSub.induct with
  | case1 c1 c2 c3 c4 rest hcond ih =>
    simp only [tmSub, if_pos hcond] at hc
    rcases List.mem_cons.mp hc with rfl | hc
    · simp
    · rcases List.mem_cons.mp hc with rfl | hc
      · simp
      · simp [ih hc]
  | case2 c1 c2 c3 c4 rest hcond ih =>
    simp only [tmSub, if_neg hcond] at hc
    rcases List.mem_cons.mp hc with rfl | hc
    · simp
    · simp [ih hc]
  | case3 s h =>
    rw [tmSub.eq_def] at hc
    split at hc
    · rename_i c1 c2 c3 c4 rest
      exact (h c1 c2 c3 c4 rest rfl).elim
    · exact hc

theorem length_tmSub (s : List Char) : (tmSub s).length ≤ s.length := by
  induction s using tmSub.induct with
  | case1 c1 c2 c3 c4 rest hcond ih =>
    simp only [tmSub, if_pos hcond, List.length_cons]
    omega
  | case2 c1 c2 c3 c4 rest hcond ih =>
    simp only [tmSub, if_neg hcond, List.length_cons] at *
    omega
  | case3 s h =>
    rw [tmSub.eq_def]
    split
    · rename_i c1 c2 c3 c4 rest
      exact (h c1 c2 c3 c4 rest rfl).elim
    · exact Nat.le_refl _

theorem mem_colonSub (s : List Char) (c : Char) (hc : c ∈ colonSub s) : c ∈ s := by
  induction s using colonSub.induct with
  | case1 => simp [colonSub] at hc
  | case2 a rest h ih =>
    rw [colonSub, dif_pos h] at hc
    exact List.mem_of_mem_drop (ih hc)
  | case3 a rest h ih =>
    rw [colonSub, dif_neg h] at hc
    rcases List.mem_cons.mp hc with rfl | hc
    · simp
    · simp [ih hc]

theorem length_colonSub (s : List Char) : (colonSub s).length ≤ s.length := by
  induction s using colonSub.induct with
  | case1 => simp [colonSub]
  | case2 a rest h ih =>
    rw [colonSub, dif_pos h]
    refine Nat.le_trans ih ?_
    simp only [List.length_drop]
    exact Nat.sub_le _ _
  | case3 a rest h ih =>
    rw [colonSub, dif_neg h]
    simp only [List.length_cons]
    omega

theorem mem_bracketsSubG (op cl : Char) (s : List Char) (c : Char)
    (hc : c ∈ bracketsSubG op cl s) : c ∈ s := by
  induction s using bracketsSubG.induct op cl with
  | case1 => simp [bracketsSubG] at hc
  | case2 rest i hfind ih =>
    rw [bracketsSubG, if_pos rfl] at hc
    simp only [hfind] at hc
    have h1 := ih hc
    have h2 := List.dropWhile_subset (fun d => d = ' ') h1
    exact List.mem_cons_of_mem op (List.mem_of_mem_drop h2)
  | case3 rest hfind ih =>
    rw [bracketsSubG, if_pos rfl] at hc
    simp only [hfind] at hc
    rcases List.mem_cons.mp hc with rfl | hc
    · simp
    · simp [ih hc]
  | case4 a rest hne ih =>
    rw [bracketsSubG, if_neg hne] at hc
    rcases List.mem_cons.mp hc with rfl | hc
    · simp
    · simp [ih hc]

theorem length_bracketsSubG (op cl : Char) (s : List Char) :
    (bracketsSubG op cl s).length ≤ s.length := by
  induction s using bracketsSubG.induct op cl with
  | case1 => simp [bracketsSubG]
  | case2 rest i hfind ih =>
    rw [bracketsSubG, if_pos rfl]
    simp only [hfind]
    refine Nat.le_trans ih ?_
    refine Nat.le_trans (length_dropWhile_le _ _) ?_
    simp only [List.length_drop, List.length_cons]
    omega
  | case3 rest hfind ih =>
    rw [bracketsSubG, if_pos rfl]
    simp only [hfind]
    simp only [List.length_cons]
    omega
  | case4 a rest hne ih =>
    rw [bracketsSubG, if_neg hne]
    simp only [List.length_cons]
    omega

theorem mem_zhihuSub (s : List Char) (c : Char) (hc : c ∈ zhihuSub s) : c ∈ s := by
  induction s using zhihuSub.induct with
  | case1 => simp [zhihuSub] at hc
  | case2 a rest av bv h ih =>
    rw [zhihuSub, dif_pos h] at hc
    have h1 := ih hc
    have h2 := List.dropWhile_subset pyWS h1
    exact List.mem_of_mem_drop h2
  | case3 a rest av bv h ih =>
    rw [zhihuSub, dif_neg h] at hc
    rcases List.mem_cons.mp hc with rfl | hc
    · simp
    · simp [ih hc]

theorem length_zhihuSub (s : List Char) : (zhihuSub s).length ≤ s.length := by
  induction s using zhihuSub.induct with
  | case1 => simp [zhihuSub]
  | case2 a rest av bv h ih =>
    rw [zhihuSub, dif_pos h]
    refine Nat.le_trans ih ?_
    refine Nat.le_trans (length_dropWhile_le _ _) ?_
    simp only [List.length_drop]
    exact Nat.sub_le _ _
  | case3 a rest av bv h ih =>
    rw [zhihuSub, dif_neg h]
    simp only [List.length_cons]
    omega

theorem mem_seq_clean_pre (s : List Char) (dt : String) (c : Char)
    (hc : c ∈ seq_clean_pre s dt) : c ∈ s := by
  simp only [seq_clean_pre] at hc
  split at hc
  · exact mem_zhihuSub s c hc
  · split at hc
    · exact mem_bracketsSubG '[' ']' s c (mem_bracketsSubG '［' '］' _ c hc)
    · exact hc

theorem mem_seq_clean (s : List Char) (dt : String) (c : Char)
    (hc : c ∈ seq_clean s dt) : c ∈ s := by
  simp only [seq_clean] at hc
  have h7 := mem_tmSub _ c hc
  rcases mem_pyReplace _ _ _ c h7 with h6 | h6
  · simp at h6
  rcases mem_pyReplace _ _ _ c h6 with h5 | h5
  · simp at h5
  rcases mem_pyReplace _ _ _ c h5 with h4 | h4
  · simp at h4
  have h3 := mem_colonSub _ c h4
  split at h3
  · simp at h3
  split at h3
  · simp at h3
  exact mem_seq_clean_pre s dt c h3

theorem length_seq_clean_pre (s : List Char) (dt : String) :
    (seq_clean_pre s dt).length ≤ s.length := by
  simp only [seq_clean_pre]
  split
  · exact length_zhihuSub s
  split
  · exact Nat.le_trans (length_bracketsSubG _ _ _) (length_bracketsSubG _ _ _)
  · exact Nat.le_refl _

theorem length_seq_clean (s : List Char) (dt : String) :
    (seq_clean s dt).length ≤ s.length := by
  simp only [seq_clean]
  refine Nat.le_trans (length_tmSub _) ?_
  refine Nat.le_trans (length_pyReplace_nil _ _) ?_
  refine Nat.le_trans (length_pyReplace_nil _ _) ?_
  refine Nat.le_trans (length_pyReplace_nil _ _) ?_
  refine Nat.le_trans (length_colonSub _) ?_
  split
  · simp
  split
  · simp
  exact length_seq_clean_pre s dt

theorem mem_clean_utt (path : List Char) (extra : Bool) (seq : List Char) (c : Char)
    (hc : c ∈ clean_utt path extra seq) : c ∈ seq := by
  simp only [clean_utt] at hc
  split at hc
  · have h1 := mem_seq_clean _ _ c hc
    rcases mem_pyReplace _ _ _ c h1 with h2 | h2
    · simp at h2
    · exact h2
  · rcases mem_pyReplace _ _ _ c hc with h2 | h2
    · simp at h2
    · exact h2

theorem clean_utt_no_space (path : List Char) (extra : Bool) (seq : List Char) :
    ' ' ∉ clean_utt path extra seq := by
  simp only [clean_utt]
  split
  · intro h
    exact space_not_mem_removeSpaces seq (mem_seq_clean _ _ ' ' h)
  · exact space_not_mem_removeSpaces seq

/-! ### The dialog segmentation refinement -/

theorem splitRuns_ne_nil {α : Type} (valid : α → Bool) (l : List α) :
    splitRuns valid l ≠ [] := by
  induction l with
  | nil => simp [splitRuns]
  | cons a rest ih =>
    simp only [splitRuns]
    split
    · cases h : splitRuns valid rest with
      | nil => exact absurd h ih
      | cons b t => simp [h, List.modifyHead_cons]
    · simp

theorem mem_splitRuns_valid {α : Type} (valid : α → Bool) (l : List α)
    (r : List α) (hr : r ∈ splitRuns valid l) (u : α) (hu : u ∈ r) :
    valid u = true := by
  induction l generalizing r with
  | nil =>
    simp [splitRuns] at hr
    subst hr
    simp at hu
  | cons a rest ih =>
    simp only [splitRuns] at hr
    by_cases ha : valid a = true
    · rw [if_pos ha] at hr
      cases h : splitRuns valid rest with
      | nil => exact absurd h (splitRuns_ne_nil valid rest)
      | cons b t =>
        rw [h, List.modifyHead_cons] at hr
        rcases List.mem_cons.mp hr with rfl | hr2
        · rcases List.mem_cons.mp hu with rfl | hu2
          · exact ha
          · exact ih b (h ▸ List.mem_cons_self b t) hu2
        · exact ih r (h ▸ List.mem_cons_of_mem b hr2) hu
    · rw [if_neg ha] at hr
      rcases List.mem_cons.mp hr with rfl | hr2
      · simp at hu
      · exact ih r hr2 hu

theorem mem_splitRuns_mem {α : Type} (valid : α → Bool) (l : List α)
    (r : List α) (hr : r ∈ splitRuns valid l) (u : α) (hu : u ∈ r) :
    u ∈ l := by
  induction l generalizing r with
  | nil =>
    simp [splitRuns] at hr
    subst hr
    simp at hu
  | cons a rest ih =>
    simp only [splitRuns] at hr
    by_cases ha : valid a = true
    · rw [if_pos ha] at hr
      cases h : splitRuns valid rest with
      | nil => exact absurd h (splitRuns_ne_nil valid rest)
      | cons b t =>
        rw [h, List.modifyHead_cons] at hr
        rcases List.mem_cons.mp hr with rfl | hr2
        · rcases List.mem_cons.mp hu with rfl | hu2
          · simp
          · exact List.mem_cons_of_mem a (ih b (h ▸ List.mem_cons_self b t) hu2)
        · exact List.mem_cons_of_mem a (ih r (h ▸ List.mem_cons_of_mem b hr2) hu)
    · rw [if_neg ha] at hr
      rcases List.mem_cons.mp hr with rfl | hr2
      · simp at hu
      · exact List.mem_cons_of_mem a (ih r hr2 hu)

theorem modifyHead_nil_append {α : Type} (l : List (List α)) :
    l.modifyHead (fun h => [] ++ h) = l := by
  cases l <;> simp [List.modifyHead_cons]

/-- The test at line 310 is the negation of validity. -/
theorem code_invalid_eq (maxLen : Nat) (s : List Char) :
    (decide (maxLen < s.length) || decide (s.length < 1) || pyIn httpL s) =
      !validB maxLen s := by
  have e1 : decide (s.length < 1) = !decide (1 ≤ s.length) := by
    by_cases h : 1 ≤ s.length
    · have h2 : ¬ (s.length < 1) := by omega
      simp [h, h2]
    · have h2 : s.length < 1 := by omega
      simp [h, h2]
  have e2 : decide (maxLen < s.length) = !decide (s.length ≤ maxLen) := by
    by_cases h : s.length ≤ maxLen
    · have h2 : ¬ (maxLen < s.length) := by omega
      simp [h, h2]
    · have h2 : maxLen < s.length := by omega
      simp [h, h2]
  rw [validB, e1, e2]
  cases decide (1 ≤ s.length) <;> cases decide (s.length ≤ maxLen) <;>
    cases pyIn httpL s <;> rfl

/-- The dialog loop computes exactly the length-two-or-more chunks of
`splitRuns` over the cleaned utterances, the first chunk extended by the
incoming accumulator. -/
theorem processDialogGo_eq (path : List Char) (extra : Bool) (maxLen : Nat)
    (l : List (List Char)) (cur : List (List Char)) :
    processDialogGo path extra maxLen cur l =
      ((splitRuns (validB maxLen) (l.map (clean_utt path extra))).modifyHead
        (fun h => cur ++ h)).filter (fun r => decide (2 ≤ r.length)) := by
  induction l generalizing cur with
  | nil =>
    simp only [processDialogGo, List.map_nil, splitRuns, List.modifyHead_cons,
      List.append_nil]
    rw [List.filter_cons]
    by_cases h : 1 < cur.length
    · have h2 : decide (2 ≤ cur.length) = true := by
        simp only [decide_eq_true_eq]
        omega
      rw [if_pos h, h2]
      simp
    · have h2 : decide (2 ≤ cur.length) = false := by
        simp only [decide_eq_false_iff_not]
        omega
      rw [if_neg h, h2]
      simp
  | cons seq rest ih =>
    simp only [processDialogGo, List.map_cons, splitRuns]
    by_cases hv : validB maxLen (clean_utt path extra seq) = true
    · have hcond : (decide (maxLen < (clean_utt path extra seq).length) ||
          decide ((clean_utt path extra seq).length < 1) ||
          pyIn httpL (clean_utt path extra seq)) = false := by
        rw [code_invalid_eq, hv]
        rfl
      rw [if_pos hv]
      simp only [hcond, Bool.false_eq_true, if_false]
      rw [ih (cur ++ [clean_utt path extra seq])]
      cases h : splitRuns (validB maxLen) (rest.map (clean_utt path extra)) with
      | nil => exact absurd h (splitRuns_ne_nil _ _)
      | cons b t =>
        simp only [List.modifyHead_cons]
        rw [List.append_assoc]
        rfl
    · have hcond : (decide (maxLen < (clean_utt path extra seq).length) ||
          decide ((clean_utt path extra seq).length < 1) ||
          pyIn httpL (clean_utt path extra seq)) = true := by
        rw [code_invalid_eq]
        simp [hv]
      rw [if_neg hv]
      simp only [hcond, if_true]
      rw [ih []]
      rw [modifyHead_nil_append]
      cases h : splitRuns (validB maxLen) (rest.map (clean_utt path extra)) with
      | nil => exact absurd h (splitRuns_ne_nil _ _)
      | cons b t =>
        simp only [List.modifyHead_cons, List.append_nil, List.filter_cons]
        by_cases h2 : 1 < cur.length
        · have h3 : decide (2 ≤ cur.length) = true := by
            simp only [decide_eq_true_eq]
            omega
          rw [if_pos h2, h3]
          simp
        · have h3 : decide (2 ≤ cur.length) = false := by
            simp only [decide_eq_false_iff_not]
            omega
          rw [if_neg h2, h3]
          simp

theorem mem_pyStrip (s : List Char) (c : Char) (hc : c ∈ pyStrip s) : c ∈ s := by
  simp only [pyStrip] at hc
  rw [List.mem_reverse] at hc
  have h1 := List.dropWhile_subset pyWS hc
  rw [List.mem_reverse] at h1
  exact List.dropWhile_subset pyWS h1

theorem mem_joinSep (sep : List Char) (l : List (List Char)) (c : Char)
    (hc : c ∈ joinSep sep l) : c ∈ sep ∨ ∃ u ∈ l, c ∈ u := by
  induction l with
  | nil => simp [joinSep] at hc
  | cons x xs ih =>
    cases xs with
    | nil =>
      right
      exact ⟨x, List.mem_cons_self x [], hc⟩
    | cons y ys =>
      have hx : joinSep sep (x :: y :: ys) = x ++ sep ++ joinSep sep (y :: ys) := by
        simp [joinSep]
      rw [hx] at hc
      rcases List.mem_append.mp hc with h1 | h1
      · rcases List.mem_append.mp h1 with h2 | h2
        · exact Or.inr ⟨x, List.mem_cons_self x _, h2⟩
        · exact Or.inl h2
      · rcases ih h1 with h2 | ⟨u, hu, hcu⟩
        · exact Or.inl h2
        · exact Or.inr ⟨u, List.mem_cons_of_mem x hu, hcu⟩

theorem tab_mem_joinSep_tt (us : List (List Char)) (h : 2 ≤ us.length) :
    '\t' ∈ joinSep ttL us := by
  cases us with
  | nil => simp at h
  | cons x xs =>
    cases xs with
    | nil => simp at h
    | cons y ys =>
      have hx : joinSep ttL (x :: y :: ys) = x ++ ttL ++ joinSep ttL (y :: ys) := by
        simp [joinSep]
      rw [hx]
      refine List.mem_append.mpr (Or.inl ?_)
      refine List.mem_append.mpr (Or.inr ?_)
      simp [ttL]

theorem getLast?_take_succ {α : Type} (d : α) (l : List α) (j : Nat)
    (hj : j < l.length) : (l.take (j + 1)).getLast? = some (l.getD j d) := by
  induction l generalizing j with
  | nil => simp at hj
  | cons a rest ih =>
    cases j with
    | zero => simp [List.getD]
    | succ j2 =>
      have hj2 : j2 < rest.length := by simpa using hj
      cases rest with
      | nil => simp at hj2
      | cons b rest2 =>
        have h1 : List.take (j2 + 1 + 1) (a :: b :: rest2) =
            a :: List.take (j2 + 1) (b :: rest2) := by
          simp [List.take_succ_cons]
        rw [h1]
        have h2 : (a :: List.take (j2 + 1) (b :: rest2)).getLast? =
            (List.take (j2 + 1) (b :: rest2)).getLast? := by
          rw [List.take_succ_cons]
          exact List.getLast?_cons_cons
        rw [h2, ih j2 hj2, List.getD_cons_succ]

/-- Provenance of an utterance inside a collected run: the run has at least
two members, each member is valid, and each member is the cleaning of some
utterance of some line of the file. -/
theorem mem_single_func_runs (content path : List Char) (extra : Bool)
    (maxLen : Nat) (x : List (List Char))
    (hx : x ∈ single_func_runs content path extra maxLen) :
    2 ≤ x.length ∧ ∀ u ∈ x, validB maxLen u = true ∧
      ∃ seq, u = clean_utt path extra seq ∧
        ∃ line ∈ load_txt content, seq ∈ splitTT line := by
  simp only [single_func_runs] at hx
  rcases List.mem_flatMap.mp hx with ⟨dialog, hdialog, hxd⟩
  rcases List.mem_map.mp hdialog with ⟨line, hline, rfl⟩
  rw [processDialogGo_eq, modifyHead_nil_append] at hxd
  have hfil := List.mem_filter.mp hxd
  have hlen : 2 ≤ x.length := by simpa using hfil.2
  refine ⟨hlen, fun u hu => ?_⟩
  have hval := mem_splitRuns_valid _ _ x hfil.1 u hu
  have hmem := mem_splitRuns_mem _ _ x hfil.1 u hu
  rcases List.mem_map.mp hmem with ⟨seq, hseq, rfl⟩
  exact ⟨hval, seq, rfl, line, hline, hseq⟩

theorem rfind_isSome_iff (s : List Char) (c : Char) :
    (∃ i, rfind s c = some i) ↔ c ∈ s := by
  induction s with
  | nil => simp [rfind]
  | cons a rest ih =>
    simp only [rfind]
    cases h : rfind rest c with
    | some i =>
      constructor
      · intro _
        exact List.mem_cons_of_mem a (ih.mp ⟨i, h⟩)
      · intro _
        exact ⟨i + 1, rfl⟩
    | none =>
      by_cases ha : a = c
      · subst ha
        simp only [if_pos rfl]
        constructor
        · intro _
          exact List.mem_cons_self a rest
        · intro _
          exact ⟨0, rfl⟩
      · rw [if_neg ha]
        constructor
        · rintro ⟨i, hi⟩
          cases hi
        · intro hc2
          rcases List.mem_cons.mp hc2 with rfl | hc3
          · exact absurd rfl ha
          · rcases ih.mpr hc3 with ⟨i, hi⟩
            rw [h] at hi
            cases hi

theorem getD_mem {α : Type} (l : List α) (n : Nat) (d : α) (h : n < l.length) :
    l.getD n d ∈ l := by
  induction l generalizing n with
  | nil => simp at h
  | cons a rest ih =>
    cases n with
    | zero => simp [List.getD]
    | succ n2 =>
      rw [List.getD_cons_succ]
      exact List.mem_cons_of_mem a (ih n2 (by simpa using h))

/-- The regex `(@+)\S{,30} ` needs a literal space in the string, so it can
never match a string without spaces. -/
theorem atSearch_no_space (s : List Char) (h : ' ' ∉ s) : atSearch s = false := by
  rw [atSearch]
  simp only [List.any_eq_false, Bool.not_eq_true, Bool.and_eq_true, decide_eq_true_eq,
    not_and]
  intro i _ k _ j _ habc hD
  exact h (hD ▸ getD_mem s (i + k + j) 'x' habc.1.1)

theorem contain_at_iff_tail (seq : List Char) (tl : Nat)
    (hs : atSearch seq = false) :
    contain_at seq tl = true ↔
      ∃ i, rfind seq '@' = some i ∧ seq.length - i < tl := by
  rw [contain_at, if_neg (by simp [hs])]
  cases h : rfind seq '@' with
  | some i =>
    constructor
    · intro hd
      exact ⟨i, rfl, by simpa using hd⟩
    · rintro ⟨i2, hi2, hlt⟩
      injection hi2 with hii
      subst hii
      simpa using hlt
  | none =>
    constructor
    · intro hd
      cases hd
    · rintro ⟨i2, hi2, _⟩
      cases hi2

/-- Decomposition of a fragment: it is the join of a prefix `x[:j+1]` of a
run, with `1 ≤ j < len(x)` and `len(x[j]) ≥ min_length`. -/
theorem mem_fragmentsOf (runs : List (List (List Char))) (minLen : Nat)
    (frag : List Char) (hf : frag ∈ fragmentsOf runs minLen) :
    ∃ x ∈ runs, ∃ j, 1 ≤ j ∧ j < x.length ∧ minLen ≤ (x.getD j []).length ∧
      frag = joinSep ttL (x.take (j + 1)) := by
  simp only [fragmentsOf] at hf
  rcases List.mem_flatMap.mp hf with ⟨x, hx, hfx⟩
  rcases List.mem_filterMap.mp hfx with ⟨j, hj, hjf⟩
  rw [List.mem_range'_1] at hj
  split at hjf
  · rename_i hlen
    injection hjf with hjf2
    exact ⟨x, hx, j, hj.1, by omega, hlen, hjf2.symm⟩
  · cases hjf

theorem load_txt_no_nl (content : List Char) (line : List Char)
    (hl : line ∈ load_txt content) : '\n' ∉ line := by
  simp only [load_txt] at hl
  have h1 := List.mem_of_mem_filter hl
  rcases List.mem_map.mp h1 with ⟨raw, hraw, rfl⟩
  intro h
  exact mem_splitNL_no_nl content raw hraw (mem_pyStrip raw '\n' h)

theorem frag_no_nl (content path : List Char) (extra : Bool)
    (minLen maxLen : Nat) (frag : List Char)
    (hf : frag ∈ fragmentsOf (single_func_runs content path extra maxLen) minLen) :
    '\n' ∉ frag := by
  rcases mem_fragmentsOf _ _ _ hf with ⟨x, hx, j, hj1, hj2, hjlen, rfl⟩
  intro hmem
  rcases mem_joinSep ttL _ '\n' hmem with h1 | ⟨u, hu, hcu⟩
  · simp [ttL] at h1
  · have hux : u ∈ x := List.take_subset _ _ hu
    rcases (mem_single_func_runs content path extra maxLen x hx).2 u hux with
      ⟨hval, seq, rfl, line, hline, hseq⟩
    exact load_txt_no_nl content line hline
      (mem_splitTT_subset line seq hseq '\n' (mem_clean_utt _ _ _ '\n' hcu))

/-- Splitting at single tab characters — the reading of the claim's phrase
"splitting that line at tab separators" (spec-side definition, for comparison
with the code's `split("\t\t")`). -/
def splitTab : List Char → List (List Char)
  | [] => [[]]
  | c :: rest =>
    if c = '\t' then [] :: splitTab rest
    else (splitTab rest).modifyHead (fun h => c :: h)

/-! ### Claim theorems -/

/-- C1: `single_func` partitions each dialog (an input line split into
utterances) into the maximal contiguous runs of utterances that are valid
after cleaning — valid meaning length at least 1 and at most `max_length`
with no occurrence of `"http"` — an invalid utterance ends the current run,
and exactly the runs holding at least two utterances are collected into
`new_data`, from which the output fragments are drawn. -/
theorem C1_segmentation (content path : List Char) (extra_func : Bool)
    (min_length max_length : Nat) :
    single_func_runs content path extra_func max_length =
      ((load_txt content).map splitTT).flatMap (fun dialog =>
        (splitRuns (validB max_length) (dialog.map (clean_utt path extra_func))).filter
          (fun r => decide (2 ≤ r.length))) ∧
    single_func_content content path extra_func min_length max_length =
      joinSep ['\n'] (fragmentsOf (single_func_runs content path extra_func max_length)
        min_length) := by
  constructor
  · simp only [single_func_runs]
    congr 1
    funext dialog
    rw [processDialogGo_eq, modifyHead_nil_append]
  · rfl

/-- C2 as stated is false on the code: utterances come from splitting at the
two-character separator `"\t\t"`, not at tab characters — the line `"a\tb"`
stays one utterance instead of splitting into `"a"` and `"b"`. -/
theorem C2_counterexample :
    splitTT ['a', '\t', 'b'] ≠ splitTab ['a', '\t', 'b'] := by
  decide

/-- C2 amended: the utterances of a dialog are the segments obtained by
splitting the line at double-tab (`"\t\t"`) separators — joining the
segments back with `"\t\t"` recovers the line, and no segment contains
`"\t\t"`. -/
theorem C2_double_tab_split (line : List Char) :
    joinSep ttL (splitTT line) = line ∧
      ∀ u ∈ splitTT line, pyIn ttL u = false :=
  ⟨joinSep_splitTT line, fun u hu => mem_splitTT_no_tt line u hu⟩

theorem C2_witness :
    joinSep ttL (splitTT ['a', '\t', '\t', 'b']) = ['a', '\t', '\t', 'b'] ∧
      pyIn ttL ['a'] = false :=
  ⟨(C2_double_tab_split ['a', '\t', '\t', 'b']).1,
   (C2_double_tab_split ['a', '\t', '\t', 'b']).2 ['a'] (by decide)⟩

/-- C5: with the cleaning pass enabled — as the command-line entry point
sets it for every processed file — every utterance of every dialog has
`seq_clean` applied to it (after space removal) before the validity check,
with the rule set selected by whether the file path contains `"zhihu"`,
`"weibo_tang"`, or `"weibo_sunhao"`. -/
theorem C5_cleaning_applied (path : List Char) (max_length : Nat)
    (dialog : List (List Char)) :
    processDialogGo path script_extra_func max_length [] dialog =
      (splitRuns (validB max_length)
        (dialog.map (fun seq => seq_clean (pyReplace [' '] [] seq)
          (if pyIn zhihuL path then "zhihu"
           else if pyIn weiboTangL path || pyIn weiboSunhaoL path then "weibo_tang"
           else "none")))).filter (fun r => decide (2 ≤ r.length)) := by
  rw [processDialogGo_eq, modifyHead_nil_append]
  rfl

/-- C9: for a string without spaces, `contain_at(seq, tail_length)` is true
exactly when the string contains `'@'` and the distance from the last `'@'`
to the end is strictly below `tail_length`; in particular, the regex branch
can never match there — including at `seq_clean`'s call from `single_func`,
whose argument has had all spaces removed. -/
theorem C9_contain_at_tail (seq : List Char) (tail_length : Nat)
    (h : ' ' ∉ seq) :
    atSearch seq = false ∧
    (contain_at seq tail_length = true ↔
      ('@' ∈ seq ∧ ∃ i, rfind seq '@' = some i ∧
        seq.length - i < tail_length)) ∧
    ∀ (raw : List Char) (dt : String),
      atSearch (seq_clean_pre (pyReplace [' '] [] raw) dt) = false := by
  have hs := atSearch_no_space seq h
  refine ⟨hs, ?_, ?_⟩
  · rw [contain_at_iff_tail seq tail_length hs]
    constructor
    · rintro ⟨i, hi, hlt⟩
      exact ⟨(rfind_isSome_iff seq '@').mp ⟨i, hi⟩, i, hi, hlt⟩
    · rintro ⟨_, i, hi, hlt⟩
      exact ⟨i, hi, hlt⟩
  · intro raw dt
    apply atSearch_no_space
    intro hsp
    exact space_not_mem_removeSpaces raw (mem_seq_clean_pre _ dt ' ' hsp)

theorem C9_witness :
    atSearch ['a', 'b', '@', 'c'] = false ∧
    (contain_at ['a', 'b', '@', 'c'] 30 = true ↔
      ('@' ∈ (['a', 'b', '@', 'c'] : List Char) ∧
        ∃ i, rfind ['a', 'b', '@', 'c'] '@' = some i ∧
          (['a', 'b', '@', 'c'] : List Char).length - i < 30)) ∧
    ∀ (raw : List Char) (dt : String),
      atSearch (seq_clean_pre (pyReplace [' '] [] raw) dt) = false :=
  C9_contain_at_tail ['a', 'b', '@', 'c'] 30 (by decide)

/-- C10: for every string and every `data_type` value, `seq_clean` never
lengthens its input. -/
theorem C10_seq_clean_length (seq : List Char) (data_type : String) :
    (seq_clean seq data_type).length ≤ seq.length :=
  length_seq_clean seq data_type

/-- C6 as stated is false on the code: Python `str.replace` replaces every
occurrence of `indir`, not only the leading one.  With `indir = "data"` and
`outdir = "out"`, the walked file `"data/mydata/x.txt"` is written to
`"out/myout/x.txt"`, not to `outdir` plus the relative path
`"/mydata/x.txt"`. -/
theorem C6_counterexample :
    outpath_of ['d', 'a', 't', 'a'] ['o', 'u', 't']
        (['d', 'a', 't', 'a'] ++ ['/', 'm', 'y', 'd', 'a', 't', 'a', '/', 'x', '.', 't', 'x', 't']) ≠
      ['o', 'u', 't'] ++ ['/', 'm', 'y', 'd', 'a', 't', 'a', '/', 'x', '.', 't', 'x', 't'] := by
  decide

/-- C6 amended: `main` computes each output path by replacing every
occurrence of `indir` in the path with `outdir` (Python `str.replace`); when
`indir` occurs in the path only as its leading prefix, the output path is
`outdir` followed by the file's relative path, mirroring the tree. -/
theorem C6_outpath_mirror (indir outdir rest : List Char)
    (hne : indir ≠ []) (hocc : pyIn indir rest = false) :
    outpath_of indir outdir (indir ++ rest) = outdir ++ rest := by
  cases indir with
  | nil => exact absurd rfl hne
  | cons o os =>
    have h0 : outpath_of (o :: os) outdir ((o :: os) ++ rest) =
        pyReplaceGo (o :: os) outdir ((o :: os) ++ rest).length ((o :: os) ++ rest) := by
      simp [outpath_of, pyReplace]
    rw [h0]
    have hlen : ((o :: os) ++ rest).length = (os ++ rest).length + 1 := by simp
    rw [hlen]
    have hpre : (o :: os).isPrefixOf (o :: (os ++ rest)) = true := by
      simp [List.isPrefixOf_iff_prefix]
    show pyReplaceGo (o :: os) outdir ((os ++ rest).length + 1) (o :: (os ++ rest)) =
      outdir ++ rest
    simp only [pyReplaceGo, hpre, List.isEmpty_cons, Bool.not_false, Bool.and_true,
      if_true, List.length_cons, List.drop_succ_cons]
    rw [List.drop_left]
    rw [pyReplaceGo_no_occ _ _ _ _ hocc]

theorem C6_witness :
    (['i', 'n'] : List Char) ≠ [] ∧ pyIn ['i', 'n'] ['/', 'a'] = false ∧
      outpath_of ['i', 'n'] ['o'] (['i', 'n'] ++ ['/', 'a']) = ['o'] ++ ['/', 'a'] :=
  ⟨by decide, by decide,
   C6_outpath_mirror ['i', 'n'] ['o'] ['/', 'a'] (by decide) (by decide)⟩

/-- C7: every dialog fragment written to the output contains at least two
utterances; equivalently, every non-empty line of the output file contains a
tab. -/
theorem C7_fragments_two_utterances (content path : List Char)
    (extra_func : Bool) (min_length max_length : Nat) :
    (∀ frag ∈ fragmentsOf (single_func_runs content path extra_func max_length)
        min_length,
      ∃ us : List (List Char), 2 ≤ us.length ∧ frag = joinSep ttL us) ∧
    (∀ line ∈ splitNL (single_func_content content path extra_func min_length
        max_length),
      line ≠ [] → '\t' ∈ line) := by
  have hdec : ∀ frag ∈ fragmentsOf (single_func_runs content path extra_func
      max_length) min_length,
      ∃ us : List (List Char), 2 ≤ us.length ∧ frag = joinSep ttL us := by
    intro frag hf
    rcases mem_fragmentsOf _ _ _ hf with ⟨x, hx, j, hj1, hj2, hjlen, rfl⟩
    refine ⟨x.take (j + 1), ?_, rfl⟩
    rw [List.length_take]
    omega
  refine ⟨hdec, ?_⟩
  intro line hline hne
  rw [single_func_content] at hline
  cases hfr : fragmentsOf (single_func_runs content path extra_func max_length)
      min_length with
  | nil =>
    rw [hfr] at hline
    simp [joinSep, splitNL] at hline
    exact absurd hline hne
  | cons f fs =>
    rw [hfr, splitNL_joinSep (f :: fs) (by simp) (fun g hg =>
      frag_no_nl content path extra_func min_length max_length g (hfr ▸ hg))] at hline
    rcases hdec line (hfr ▸ hline) with ⟨us, hus2, rfl⟩
    exact tab_mem_joinSep_tt us hus2

theorem C7_witness :
    '\t' ∈ (['h', 'e', 'l', 'l', 'o', '\t', '\t', 'w', 'o', 'r', 'l', 'd'] : List Char) :=
  (C7_fragments_two_utterances
      ['h', 'e', 'l', 'l', 'o', '\t', '\t', 'w', 'o', 'r', 'l', 'd'] ['p'] false 5 200).2
    ['h', 'e', 'l', 'l', 'o', '\t', '\t', 'w', 'o', 'r', 'l', 'd'] (by decide) (by decide)

/-- C8: in every fragment written by `single_func`, every utterance is
non-empty, no longer than `max_length`, contains neither a space nor
`"http"`, and the fragment's final utterance has length at least
`min_length`. -/
theorem C8_fragment_utterances (content path : List Char) (extra_func : Bool)
    (min_length max_length : Nat) :
    ∀ frag ∈ fragmentsOf (single_func_runs content path extra_func max_length)
        min_length,
      ∃ us : List (List Char), frag = joinSep ttL us ∧
        (∀ u ∈ us, u ≠ [] ∧ u.length ≤ max_length ∧ ' ' ∉ u ∧
          pyIn httpL u = false) ∧
        ∃ ulast, us.getLast? = some ulast ∧ min_length ≤ ulast.length := by
  intro frag hf
  rcases mem_fragmentsOf _ _ _ hf with ⟨x, hx, j, hj1, hj2, hjlen, rfl⟩
  have hruns := mem_single_func_runs content path extra_func max_length x hx
  refine ⟨x.take (j + 1), rfl, ?_, x.getD j [], getLast?_take_succ [] x j hj2, hjlen⟩
  intro u hu
  have hux : u ∈ x := List.take_subset _ _ hu
  rcases hruns.2 u hux with ⟨hval, seq, hueq, _⟩
  simp only [validB, Bool.and_eq_true, decide_eq_true_eq, Bool.not_eq_true'] at hval
  refine ⟨?_, hval.1.2, ?_, hval.2⟩
  · intro hnil
    rw [hnil] at hval
    simp at hval
  · rw [hueq]
    exact clean_utt_no_space path extra_func seq

theorem C8_witness :
    ∃ us : List (List Char),
      (['h', 'e', 'l', 'l', 'o', '\t', '\t', 'w', 'o', 'r', 'l', 'd'] : List Char) =
        joinSep ttL us ∧
      (∀ u ∈ us, u ≠ [] ∧ u.length ≤ 200 ∧ ' ' ∉ u ∧ pyIn httpL u = false) ∧
      ∃ ulast, us.getLast? = some ulast ∧ 5 ≤ ulast.length :=
  C8_fragment_utterances
    ['h', 'e', 'l', 'l', 'o', '\t', '\t', 'w', 'o', 'r', 'l', 'd'] ['p'] false 5 200
    ['h', 'e', 'l', 'l', 'o', '\t', '\t', 'w', 'o', 'r', 'l', 'd'] (by decide)

/-- C3: `single_func` never propagates an exception: whatever the
environment does, the call produces a trace (returns normally), performs
exactly one load attempt (no retry), and when the body raises — at load or
at save — the raised message is printed after the events already performed;
a failed load writes nothing. -/
theorem C3_no_exception (env : Env) (path outpath : List Char)
    (extra_func : Bool) (min_length max_length : Nat) :
    ((single_func_trace env path outpath extra_func min_length max_length).filter
      isRead).length = 1 ∧
    (∀ e, (single_func_body env path outpath extra_func min_length max_length).2 =
        Except.error e →
      single_func_trace env path outpath extra_func min_length max_length =
        (single_func_body env path outpath extra_func min_length max_length).1 ++
          [Event.eprint (errMsg e)]) ∧
    (∀ e, env.fs path = Except.error e →
      writtenContents (single_func_trace env path outpath extra_func min_length
        max_length) = []) := by
  refine ⟨?_, ?_, ?_⟩
  · cases hfs : env.fs path with
    | error e =>
      simp [single_func_trace, single_func_body, hfs, isRead]
    | ok content =>
      cases hw : env.writeRes outpath (single_func_content content path extra_func
          min_length max_length) with
      | error e =>
        simp [single_func_trace, single_func_body, hfs, hw, isRead]
      | ok u =>
        simp [single_func_trace, single_func_body, hfs, hw, isRead]
  · intro e he
    cases hb : single_func_body env path outpath extra_func min_length max_length with
    | mk tr r =>
      rw [hb] at he
      simp only at he
      subst he
      rw [single_func_trace, hb]
  · intro e he
    simp [single_func_trace, single_func_body, he, writtenContents]

theorem C3_witness :
    single_func_trace (Env.mk (fun _ => Except.error ['b']) (fun _ _ => Except.ok ()))
        ['p'] ['q'] false 5 200 =
      (single_func_body (Env.mk (fun _ => Except.error ['b'])
          (fun _ _ => Except.ok ())) ['p'] ['q'] false 5 200).1 ++
        [Event.eprint (errMsg ['b'])] :=
  (C3_no_exception (Env.mk (fun _ => Except.error ['b']) (fun _ _ => Except.ok ()))
    ['p'] ['q'] false 5 200).2.1 ['b'] rfl

/-- C4: `single_func` is deterministic and its written output depends only
on the listed inputs: two runs whose environments agree on reading `path`
hand identical contents to `save_txt`, whatever else (other files, write
outcomes) differs between the environments. -/
theorem C4_deterministic (env1 env2 : Env) (path outpath : List Char)
    (extra_func : Bool) (min_length max_length : Nat)
    (hagree : env1.fs path = env2.fs path) :
    writtenContents (single_func_trace env1 path outpath extra_func min_length
        max_length) =
      writtenContents (single_func_trace env2 path outpath extra_func min_length
        max_length) := by
  cases hfs : env1.fs path with
  | error e =>
    have hfs2 : env2.fs path = Except.error e := by rw [← hagree, hfs]
    simp [single_func_trace, single_func_body, hfs, hfs2, writtenContents]
  | ok content =>
    have hfs2 : env2.fs path = Except.ok content := by rw [← hagree, hfs]
    cases hw1 : env1.writeRes outpath (single_func_content content path extra_func
        min_length max_length) <;>
      cases hw2 : env2.writeRes outpath (single_func_content content path extra_func
          min_length max_length) <;>
        simp [single_func_trace, single_func_body, hfs, hfs2, hw1, hw2,
          writtenContents]

theorem C4_witness :
    writtenContents (single_func_trace
        (Env.mk (fun p => if p = ['p'] then Except.ok ['h', 'i'] else Except.error ['x'])
          (fun _ _ => Except.ok ())) ['p'] ['q'] false 5 200) =
      writtenContents (single_func_trace
        (Env.mk (fun p => if p = ['p'] then Except.ok ['h', 'i'] else Except.ok ['z'])
          (fun _ _ => Except.error ['w'])) ['p'] ['q'] false 5 200) :=
  C4_deterministic
    (Env.mk (fun p => if p = ['p'] then Except.ok ['h', 'i'] else Except.error ['x'])
      (fun _ _ => Except.ok ()))
    (Env.mk (fun p => if p = ['p'] then Except.ok ['h', 'i'] else Except.ok ['z'])
      (fun _ _ => Except.error ['w']))
    ['p'] ['q'] false 5 200 rfl

end PostFilter
